import Mathlib

/-!
Verification of the FlashCrawler crawl engine (src/FlashCrawler.py).

The engine's pure core is embedded shallowly:

* `urlparse`, `qsNames`, `parse_qs_keys` model the pieces of Python's
  `urllib.parse` the program uses (`urlparse` components `scheme`, `netloc`,
  `path`, `query`, `fragment`; `parse_qs(...).keys()` with the default
  `keep_blank_values=False`, splitting the query on `&` and dropping fields
  whose value is empty or missing).  Percent-decoding and `+`-decoding of
  parameter names, the `;params` component of `urlparse`, and the WHATWG
  control-character stripping are not exercised by any claim and are modelled
  as the identity.  CPython's `urlsplit` can raise `ValueError`; the
  mismatched-square-bracket raise condition is modelled by `urlparse_raises`
  (a sound under-approximation of the raise set) and a sufficient no-raise
  condition by `urlparse_safe`.
* `is_valid`, `normalize_param_signature`, `extract` follow the functions of
  the same names in the source; the module-level mutable sets
  (`allowed_domains`, `seen_param_signatures`, `visited`, `queue`, `found`)
  are threaded explicitly.  Python sets are modelled as duplicate-free lists
  in insertion order.
* The network fetch, redirect following, HTML parsing and the
  `urljoin(r.url, href)` resolution of each anchor are modelled by an oracle
  `web : String → Option (List String)`: `none` models any failure caught by
  `extract`'s try blocks (timeout, network error, non-2xx status, parse
  error), in which case `extract` returns the empty set; `some rs` gives the
  already-resolved absolute URLs of the page's anchors in document order.
* `crawlStep` / `crawlRun` model one iteration and the fuelled iteration of
  the `while queue and len(visited) < MAX_PAGES` loop of `crawl`;
  `runCrawler` additionally performs `load_urls`' seeding of the queue and of
  `allowed_domains`.
-/

namespace FlashCrawler

/-- Characters permitted in a URL scheme after the initial letter
(`urllib.parse.scheme_chars`: ASCII letters, digits, `+`, `-`, `.`). -/
def schemeChar (c : Char) : Bool :=
  c.isAlphanum || c == '+' || c == '-' || c == '.'

/-- Split a character list at the first occurrence of `c`; `none` when `c`
does not occur.  Models `str.find` plus slicing / `str.split(c, 1)`. -/
def splitAtFirst (c : Char) : List Char → Option (List Char × List Char)
  | [] => none
  | x :: xs =>
    if x = c then some ([], xs)
    else
      match splitAtFirst c xs with
      | none => none
      | some (pre, post) => some (x :: pre, post)

/-- Split a character list on every occurrence of `c`, like `str.split(c)`
(so the empty string yields one empty field). -/
def splitOnChar (c : Char) : List Char → List (List Char)
  | [] => [[]]
  | x :: xs =>
    if x = c then [] :: splitOnChar c xs
    else
      match splitOnChar c xs with
      | [] => [[x]]
      | f :: rest => (x :: f) :: rest

/-- The components of `urllib.parse.urlparse` used by the program. -/
structure UrlParts where
  scheme : String
  netloc : String
  path : String
  query : String
  fragment : String
deriving DecidableEq

/-- Model of `urllib.parse.urlparse` (scheme, netloc, path, query, fragment):
an initial `letter (letter|digit|+|-|.)*` before a `:` is the scheme,
lower-cased; after `//` the netloc runs up to the next `/`, `?` or `#`; the
fragment is everything after the first `#` of the remainder; the query is
everything after the first `?` of what is left; the path is the rest. -/
def urlparse (url : String) : UrlParts :=
  let l := url.toList
  let schemeRest : List Char × List Char :=
    match splitAtFirst ':' l with
    | none => ([], l)
    | some (pre, post) =>
      match pre with
      | [] => ([], l)
      | c :: cs =>
        if c.isAlpha && (c :: cs).all schemeChar then
          ((c :: cs).map Char.toLower, post)
        else ([], l)
  let netlocRest : List Char × List Char :=
    match schemeRest.2 with
    | '/' :: '/' :: r =>
      (r.takeWhile fun c => !(c == '/' || c == '?' || c == '#'),
       r.dropWhile fun c => !(c == '/' || c == '?' || c == '#'))
    | r => ([], r)
  let restFragment : List Char × List Char :=
    match splitAtFirst '#' netlocRest.2 with
    | none => (netlocRest.2, [])
    | some (a, b) => (a, b)
  let pathQuery : List Char × List Char :=
    match splitAtFirst '?' restFragment.1 with
    | none => (restFragment.1, [])
    | some (a, b) => (a, b)
  { scheme := schemeRest.1.asString
    netloc := netlocRest.1.asString
    path := pathQuery.1.asString
    query := pathQuery.2.asString
    fragment := restFragment.2.asString }

/-- One `name=value` field of a query string, as treated by
`urllib.parse.parse_qsl` with `keep_blank_values=False`: a field with no `=`
or with an empty value is dropped (`none`); otherwise the name is kept. -/
def parseQsField (f : List Char) : Option (List Char) :=
  match splitAtFirst '=' f with
  | none => none
  | some (name, value) => if value = [] then none else some name

/-- The parameter names of a query string in field order (with repetitions),
i.e. the names `parse_qs` would collect: split on `&`, keep fields with a
non-empty value. -/
def qsNames (query : String) : List String :=
  ((splitOnChar '&' query.toList).filterMap parseQsField).map List.asString

/-- Lexicographic comparison of character lists by code point, the order
Python's `sorted` uses on strings. -/
def lexLe : List Char → List Char → Bool
  | [], _ => true
  | _ :: _, [] => false
  | a :: as, b :: bs => if a = b then lexLe as bs else decide (a < b)

/-- String comparison by code points, as Python's `sorted` compares. -/
def strLe (a b : String) : Prop := lexLe a.toList b.toList = true

instance : DecidableRel strLe := fun a b => by unfold strLe; infer_instance

/-- Model of `sorted(parse_qs(query).keys())`: the distinct admitted
parameter names in lexicographic order. -/
def parse_qs_keys (query : String) : List String :=
  List.insertionSort strLe (qsNames query).dedup

/-- Model of `normalize_param_signature` (src/FlashCrawler.py lines
102-107). -/
def normalize_param_signature (url : String) : String :=
  let parsed := urlparse url
  let keys := parse_qs_keys parsed.query
  if keys = [] then parsed.path
  else parsed.path ++ "?params=" ++ String.intercalate "&" keys

/-- Model of `is_valid` (src/FlashCrawler.py lines 98-100); the module-level
`allowed_domains` set is passed explicitly. -/
def is_valid (allowed_domains : List String) (url : String) : Bool :=
  let p := urlparse url
  (p.scheme == "http" || p.scheme == "https") && allowed_domains.contains p.netloc

/-- The fetch-and-resolve oracle: `none` models any failure caught by
`extract`'s try blocks, `some rs` the absolute URLs obtained by resolving the
page's anchors against the final response URL, in document order. -/
abbrev Web := String → Option (List String)

/-- Insertion into a Python set modelled as a duplicate-free list. -/
def insertOnce (l : List String) (a : String) : List String :=
  if a ∈ l then l else l ++ [a]

/-- The body of `extract`'s per-anchor loop (src/FlashCrawler.py lines
128-136), acting on the pair (links set, seen_param_signatures set). -/
def extractStep (dedup : Bool) (allowed : List String)
    (st : List String × List String) (absUrl : String) : List String × List String :=
  if is_valid allowed absUrl then
    if dedup then
      let sig := normalize_param_signature absUrl
      if sig ∈ st.2 then st
      else (insertOnce st.1 absUrl, st.2 ++ [sig])
    else (insertOnce st.1 absUrl, st.2)
  else st

/-- Model of `extract` (src/FlashCrawler.py lines 109-137): a failed fetch or
parse yields the empty link set; otherwise each resolved URL passes the scope
filter and, when dedup mode is on, the signature check.  Returns the link set
and the updated `seen_param_signatures`. -/
def extract (web : Web) (dedup : Bool) (allowed : List String)
    (seen : List String) (url : String) : List String × List String :=
  match web url with
  | none => ([], seen)
  | some resolved => resolved.foldl (extractStep dedup allowed) ([], seen)

/-- The push loop of `crawl` (src/FlashCrawler.py lines 163-165): each link
not yet visited and not already queued is appended to the queue. -/
def pushLinks (visited queue links : List String) : List String :=
  links.foldl (fun q link => if link ∈ visited ∨ link ∈ q then q else q ++ [link]) queue

/-- The mutable state of the crawl: `visited` is the visited set in visit
order, `queue` the BFS frontier, `found` the set of all extracted links,
`seen_param_signatures` the admitted signatures in admission order. -/
structure CrawlState where
  visited : List String
  queue : List String
  found : List String
  seen_param_signatures : List String
deriving DecidableEq

/-- One iteration of `crawl`'s while loop (src/FlashCrawler.py lines
154-166): pop the head of the queue; skip it if already visited; otherwise
mark it visited, extract its links, enqueue the unseen ones and accumulate
them into `found`. -/
def crawlStep (web : Web) (dedup : Bool) (allowed : List String)
    (s : CrawlState) : CrawlState :=
  match s.queue with
  | [] => s
  | url :: rest =>
    if url ∈ s.visited then { s with queue := rest }
    else
      let visited' := s.visited ++ [url]
      { visited := visited'
        queue := pushLinks visited' rest (extract web dedup allowed s.seen_param_signatures url).1
        found := (extract web dedup allowed s.seen_param_signatures url).1.foldl insertOnce s.found
        seen_param_signatures := (extract web dedup allowed s.seen_param_signatures url).2 }

/-- The fuelled while loop of `crawl`: iterate `crawlStep` as long as the
queue is non-empty and fewer than `maxPages` URLs have been visited
(`while queue and len(visited) < MAX_PAGES`). -/
def crawlRun (web : Web) (dedup : Bool) (allowed : List String) (maxPages : Int) :
    Nat → CrawlState → CrawlState
  | 0, s => s
  | fuel + 1, s =>
    if s.queue ≠ [] ∧ (s.visited.length : Int) < maxPages then
      crawlRun web dedup allowed maxPages fuel (crawlStep web dedup allowed s)
    else s

/-- The state after `load_urls` has filled the queue with the seeds. -/
def initState (seeds : List String) : CrawlState :=
  { visited := [], queue := seeds, found := [], seen_param_signatures := [] }

/-- Model of `load_urls`' construction of `allowed_domains`: the set of the
seeds' netlocs. -/
def allowedDomainsOf (seeds : List String) : List String :=
  (seeds.map fun u => (urlparse u).netloc).dedup

/-- A whole crawl run: seed the queue and the allowed-domain set, then run
the loop.  `seeds` lists the seed set in the order `queue.extend` enumerates
it. -/
def runCrawler (web : Web) (dedup : Bool) (maxPages : Int) (fuel : Nat)
    (seeds : List String) : CrawlState :=
  crawlRun web dedup (allowedDomainsOf seeds) maxPages fuel (initState seeds)

/-- The loop's stopping condition: the frontier is empty or the page budget
is exhausted. -/
def halted (maxPages : Int) (s : CrawlState) : Prop :=
  s.queue = [] ∨ maxPages ≤ s.visited.length

/-- The concrete page graph of the BFS-ordering property: A links to B and C
(in the order given by `l`), B links to D, C and D link to nothing. -/
def bfsWeb (l : List String) : Web := fun u =>
  if u = "http://site/a" then some l
  else if u = "http://site/b" then some ["http://site/d"]
  else if u = "http://site/c" then some []
  else if u = "http://site/d" then some []
  else none

/-- The concrete page graph of the signature-dedup property: the seed page
exposes three parametrised links, every other page is empty. -/
def dedupWeb : Web := fun u =>
  if u = "http://s/" then some ["http://s/p?id=1", "http://s/p?id=2", "http://s/p?id=3&x=1"]
  else some []

/-- A page graph on which the seed has a query signature and links to a
second URL with the same signature. -/
def sameSigWeb : Web := fun u =>
  if u = "http://s/p?id=1" then some ["http://s/p?id=2"] else some []

section Lemmas

variable (web : Web) (dedup : Bool) (allowed : List String)

/-- Once the frontier is empty the loop no longer moves. -/
theorem crawlRun_queue_nil (maxPages : Int) (n : Nat) (s : CrawlState)
    (h : s.queue = []) : crawlRun web dedup allowed maxPages n s = s := by
  cases n with
  | zero => rfl
  | succ n => simp [crawlRun, h]

/-- While the guard holds, one unit of fuel performs one `crawlStep`. -/
theorem crawlRun_succ_of_guard (maxPages : Int) (n : Nat) (s : CrawlState)
    (h1 : s.queue ≠ []) (h2 : (s.visited.length : Int) < maxPages) :
    crawlRun web dedup allowed maxPages (n + 1) s
      = crawlRun web dedup allowed maxPages n (crawlStep web dedup allowed s) := by
  rw [crawlRun, if_pos ⟨h1, h2⟩]

/-- A step grows the visited list by at most one element. -/
theorem crawlStep_visited_length (s : CrawlState) :
    (crawlStep web dedup allowed s).visited.length ≤ s.visited.length + 1 := by
  unfold crawlStep
  cases hq : s.queue with
  | nil => simp
  | cons url rest => by_cases hv : url ∈ s.visited <;> simp [hv]

/-- The budget bound is an invariant of the fuelled loop. -/
theorem crawlRun_visited_le (maxPages : Int) :
    ∀ (n : Nat) (s : CrawlState), (s.visited.length : Int) ≤ maxPages →
      ((crawlRun web dedup allowed maxPages n s).visited.length : Int) ≤ maxPages := by
  intro n
  induction n with
  | zero => intro s h; exact h
  | succ n ih =>
    intro s h
    rw [crawlRun]
    split
    · next hc =>
      apply ih
      have h2 := crawlStep_visited_length web dedup allowed s
      have h3 := hc.2
      omega
    · exact h

/-- Any step-preserved predicate is preserved by the fuelled loop. -/
theorem crawlRun_inv (maxPages : Int) (P : CrawlState → Prop)
    (hstep : ∀ s, P s → P (crawlStep web dedup allowed s)) :
    ∀ (n : Nat) (s : CrawlState), P s → P (crawlRun web dedup allowed maxPages n s) := by
  intro n
  induction n with
  | zero => intro s h; exact h
  | succ n ih =>
    intro s h
    rw [crawlRun]
    split
    · exact ih _ (hstep s h)
    · exact h

/-- The loop reaches its stopping condition: lexicographic descent on
(remaining budget, queue length). -/
theorem crawl_halts_aux (maxPages : Int) :
    ∀ (B Q : Nat) (s : CrawlState),
      (maxPages - s.visited.length).toNat ≤ B → s.queue.length ≤ Q →
      ∃ n, halted maxPages (crawlRun web dedup allowed maxPages n s) := by
  intro B
  induction B with
  | zero =>
    intro Q s hB _
    exact ⟨0, Or.inr (show maxPages ≤ (s.visited.length : Int) by omega)⟩
  | succ B ihB =>
    intro Q
    induction Q with
    | zero =>
      intro s _ hQ
      exact ⟨0, Or.inl (List.length_eq_zero.mp (Nat.le_zero.mp hQ))⟩
    | succ Q ihQ =>
      intro s hB hQ
      by_cases hh : halted maxPages s
      · exact ⟨0, hh⟩
      · unfold halted at hh
        push_neg at hh
        obtain ⟨hqne, hlen⟩ := hh
        cases hq : s.queue with
        | nil => exact absurd hq hqne
        | cons url rest =>
          by_cases hv : url ∈ s.visited
          · have hcs : crawlStep web dedup allowed s = { s with queue := rest } := by
              unfold crawlStep; rw [hq]; simp [hv]
            obtain ⟨n, hn⟩ := ihQ { s with queue := rest } (by simpa using hB)
              (by rw [hq] at hQ; simp at hQ ⊢; omega)
            exact ⟨n + 1, by
              rw [crawlRun_succ_of_guard web dedup allowed maxPages n s hqne hlen, hcs]
              exact hn⟩
          · have hlen2 : (crawlStep web dedup allowed s).visited.length
                = s.visited.length + 1 := by
              unfold crawlStep; rw [hq]; simp [hv]
            obtain ⟨n, hn⟩ := ihB ((crawlStep web dedup allowed s).queue.length)
              (crawlStep web dedup allowed s) (by rw [hlen2]; omega) le_rfl
            exact ⟨n + 1, by
              rw [crawlRun_succ_of_guard web dedup allowed maxPages n s hqne hlen]
              exact hn⟩

/-- Unfolding of the push loop on one link. -/
theorem pushLinks_cons (V q : List String) (l : String) (ls : List String) :
    pushLinks V q (l :: ls)
      = pushLinks V (if l ∈ V ∨ l ∈ q then q else q ++ [l]) ls := rfl

/-- The push loop keeps the queue duplicate-free and disjoint from the
visited set. -/
theorem pushLinks_nodup_disjoint (V : List String) :
    ∀ (links q : List String), q.Nodup → (∀ u ∈ V, u ∉ q) →
      (pushLinks V q links).Nodup ∧ ∀ u ∈ V, u ∉ pushLinks V q links := by
  intro links
  induction links with
  | nil => intro q h1 h2; exact ⟨h1, h2⟩
  | cons l ls ih =>
    intro q h1 h2
    rw [pushLinks_cons]
    by_cases hc : l ∈ V ∨ l ∈ q
    · rw [if_pos hc]; exact ih q h1 h2
    · rw [if_neg hc]
      push_neg at hc
      apply ih (q ++ [l])
      · simp [List.nodup_append, h1, hc.2]
      · intro u hu
        simp only [List.mem_append, List.mem_singleton]
        rintro (h | rfl)
        · exact h2 u hu h
        · exact hc.1 hu

/-- Membership after the push loop comes from the old queue or the links. -/
theorem mem_pushLinks (V : List String) :
    ∀ (links q : List String) (u : String), u ∈ pushLinks V q links → u ∈ q ∨ u ∈ links := by
  intro links
  induction links with
  | nil => intro q u h; exact Or.inl h
  | cons l ls ih =>
    intro q u h
    rw [pushLinks_cons] at h
    rcases ih _ u h with h' | h'
    · by_cases hc : l ∈ V ∨ l ∈ q
      · rw [if_pos hc] at h'; exact Or.inl h'
      · rw [if_neg hc] at h'
        rcases List.mem_append.mp h' with h'' | h''
        · exact Or.inl h''
        · simp only [List.mem_singleton] at h''
          exact Or.inr (by simp [h''])
    · exact Or.inr (List.mem_cons_of_mem _ h')

/-- Membership after a set insertion. -/
theorem mem_insertOnce {l : List String} {a u : String} (h : u ∈ insertOnce l a) :
    u ∈ l ∨ u = a := by
  unfold insertOnce at h
  by_cases hc : a ∈ l
  · rw [if_pos hc] at h; exact Or.inl h
  · rw [if_neg hc] at h
    rcases List.mem_append.mp h with h' | h'
    · exact Or.inl h'
    · exact Or.inr (List.mem_singleton.mp h')

/-- Membership after folding set insertions. -/
theorem mem_foldl_insertOnce :
    ∀ (links f : List String) (u : String), u ∈ links.foldl insertOnce f → u ∈ f ∨ u ∈ links := by
  intro links
  induction links with
  | nil => intro f u h; exact Or.inl h
  | cons l ls ih =>
    intro f u h
    simp only [List.foldl_cons] at h
    rcases ih _ u h with h' | h'
    · rcases mem_insertOnce h' with h'' | h''
      · exact Or.inl h''
      · exact Or.inr (by simp [h''])
    · exact Or.inr (List.mem_cons_of_mem _ h')

/-- Every URL the per-anchor loop admits passed the scope filter. -/
theorem extractStep_foldl_valid (dedup : Bool) (allowed : List String) :
    ∀ (resolved : List String) (st : List String × List String),
      (∀ u ∈ st.1, is_valid allowed u = true) →
      ∀ u ∈ (resolved.foldl (extractStep dedup allowed) st).1, is_valid allowed u = true := by
  intro resolved
  induction resolved with
  | nil => intro st h; exact h
  | cons r rs ih =>
    intro st h
    simp only [List.foldl_cons]
    apply ih
    intro u hu
    unfold extractStep at hu
    by_cases hv : is_valid allowed r = true
    · rw [if_pos hv] at hu
      by_cases hd : dedup = true
      · rw [if_pos hd] at hu
        by_cases hs : normalize_param_signature r ∈ st.2
        · rw [if_pos hs] at hu; exact h u hu
        · rw [if_neg hs] at hu
          rcases mem_insertOnce hu with h' | rfl
          · exact h u h'
          · exact hv
      · rw [if_neg hd] at hu
        rcases mem_insertOnce hu with h' | rfl
        · exact h u h'
        · exact hv
    · rw [if_neg hv] at hu
      exact h u hu

/-- Every link `extract` returns passed the scope filter. -/
theorem extract_valid (web : Web) (dedup : Bool) (allowed : List String)
    (seen : List String) (url : String) :
    ∀ u ∈ (extract web dedup allowed seen url).1, is_valid allowed u = true := by
  unfold extract
  cases web url with
  | none => simp
  | some resolved =>
    exact extractStep_foldl_valid dedup allowed resolved ([], seen) (by simp)

end Lemmas

section Order

/-- Totality of the code-point order. -/
theorem lexLe_total : ∀ a b : List Char, lexLe a b = true ∨ lexLe b a = true := by
  intro a
  induction a with
  | nil => intro b; left; rfl
  | cons x xs ih =>
    intro b
    cases b with
    | nil => right; rfl
    | cons y ys =>
      simp only [lexLe]
      by_cases hxy : x = y
      · rw [if_pos hxy, if_pos hxy.symm]
        exact ih ys
      · rw [if_neg hxy, if_neg (Ne.symm hxy)]
        rcases lt_or_gt_of_ne hxy with h | h
        · exact Or.inl (decide_eq_true h)
        · exact Or.inr (decide_eq_true h)

/-- Transitivity of the code-point order. -/
theorem lexLe_trans :
    ∀ a b c : List Char, lexLe a b = true → lexLe b c = true → lexLe a c = true := by
  intro a
  induction a with
  | nil => intro b c _ _; rfl
  | cons x xs ih =>
    intro b c h1 h2
    cases b with
    | nil => simp [lexLe] at h1
    | cons y ys =>
      cases c with
      | nil => simp [lexLe] at h2
      | cons z zs =>
        simp only [lexLe] at h1 h2 ⊢
        by_cases hxy : x = y
        · rw [if_pos hxy] at h1
          by_cases hyz : y = z
          · rw [if_pos hyz] at h2
            rw [if_pos (hxy.trans hyz)]
            exact ih _ _ h1 h2
          · rw [if_neg hyz] at h2
            have hlt : y < z := of_decide_eq_true h2
            have hxz : x ≠ z := by rw [hxy]; exact ne_of_lt hlt
            rw [if_neg hxz]
            exact decide_eq_true (by rw [hxy]; exact hlt)
        · rw [if_neg hxy] at h1
          have hlt1 : x < y := of_decide_eq_true h1
          by_cases hyz : y = z
          · have hltz : x < z := hyz ▸ hlt1
            rw [if_neg (ne_of_lt hltz)]
            exact decide_eq_true hltz
          · rw [if_neg hyz] at h2
            have hltz : x < z := lt_trans hlt1 (of_decide_eq_true h2)
            rw [if_neg (ne_of_lt hltz)]
            exact decide_eq_true hltz

/-- Antisymmetry of the code-point order. -/
theorem lexLe_antisymm :
    ∀ a b : List Char, lexLe a b = true → lexLe b a = true → a = b := by
  intro a
  induction a with
  | nil =>
    intro b _ h2
    cases b with
    | nil => rfl
    | cons _ _ => simp [lexLe] at h2
  | cons x xs ih =>
    intro b h1 h2
    cases b with
    | nil => simp [lexLe] at h1
    | cons y ys =>
      simp only [lexLe] at h1 h2
      by_cases hxy : x = y
      · rw [if_pos hxy] at h1
        rw [if_pos (Eq.symm hxy)] at h2
        rw [hxy, ih _ h1 h2]
      · rw [if_neg hxy] at h1
        rw [if_neg (Ne.symm hxy)] at h2
        exact absurd (of_decide_eq_true h2) (lt_asymm (of_decide_eq_true h1))

instance : IsTotal String strLe :=
  ⟨fun a b => lexLe_total a.toList b.toList⟩

instance : IsTrans String strLe :=
  ⟨fun a b c => lexLe_trans a.toList b.toList c.toList⟩

instance : IsAntisymm String strLe :=
  ⟨fun _ _ h1 h2 => String.toList_inj.mp (lexLe_antisymm _ _ h1 h2)⟩

/-- Two queries with the same set of admitted parameter names produce the
same sorted key list. -/
theorem parse_qs_keys_eq_of_same_names (q1 q2 : String)
    (h : (qsNames q1).toFinset = (qsNames q2).toFinset) :
    parse_qs_keys q1 = parse_qs_keys q2 := by
  unfold parse_qs_keys
  refine List.eq_of_perm_of_sorted ?_ (List.sorted_insertionSort _ _)
    (List.sorted_insertionSort _ _)
  exact (List.perm_insertionSort _ _).trans
    ((List.toFinset_eq_iff_perm_dedup.mp h).trans (List.perm_insertionSort _ _).symm)

end Order

/-- The anti-duplication invariant of the frontier: the visited set and the
queue are each duplicate-free and a visited URL is never in the queue. -/
def FrontierInv (s : CrawlState) : Prop :=
  s.visited.Nodup ∧ s.queue.Nodup ∧ ∀ u ∈ s.visited, u ∉ s.queue

/-- One crawl step preserves the frontier invariant. -/
theorem crawlStep_frontierInv (web : Web) (dedup : Bool) (allowed : List String)
    (s : CrawlState) (h : FrontierInv s) : FrontierInv (crawlStep web dedup allowed s) := by
  obtain ⟨hv, hq, hd⟩ := h
  cases hqe : s.queue with
  | nil =>
    have hcs : crawlStep web dedup allowed s = s := by unfold crawlStep; rw [hqe]
    rw [hcs]
    exact ⟨hv, hq, hd⟩
  | cons url rest =>
    rw [hqe] at hq hd
    have hrest : rest.Nodup := (List.nodup_cons.mp hq).2
    by_cases hvm : url ∈ s.visited
    · have hcs : crawlStep web dedup allowed s = { s with queue := rest } := by
        unfold crawlStep; rw [hqe]; simp [hvm]
      rw [hcs]
      exact ⟨hv, hrest, fun u hu hc => hd u hu (List.mem_cons_of_mem _ hc)⟩
    · have hcs : crawlStep web dedup allowed s =
          { visited := s.visited ++ [url]
            queue := pushLinks (s.visited ++ [url]) rest
              (extract web dedup allowed s.seen_param_signatures url).1
            found := (extract web dedup allowed s.seen_param_signatures url).1.foldl
              insertOnce s.found
            seen_param_signatures := (extract web dedup allowed s.seen_param_signatures url).2 } :=
        by unfold crawlStep; rw [hqe]; simp [hvm]
      rw [hcs]
      have hvis : (s.visited ++ [url]).Nodup := by
        simp [List.nodup_append, hv, hvm]
      have hdisj : ∀ u ∈ s.visited ++ [url], u ∉ rest := by
        intro u hu
        rcases List.mem_append.mp hu with h' | h'
        · exact fun hc => hd u h' (List.mem_cons_of_mem _ hc)
        · rw [List.mem_singleton.mp h']
          exact (List.nodup_cons.mp hq).1
      obtain ⟨h1, h2⟩ := pushLinks_nodup_disjoint (s.visited ++ [url])
        (extract web dedup allowed s.seen_param_signatures url).1 rest hrest hdisj
      exact ⟨hvis, h1, h2⟩

/-- The scope invariant: every URL recorded anywhere in the state is a seed
or passed the scope filter. -/
def InScopeInv (seeds allowed : List String) (s : CrawlState) : Prop :=
  (∀ u ∈ s.visited, u ∈ seeds ∨ is_valid allowed u = true) ∧
  (∀ u ∈ s.queue, u ∈ seeds ∨ is_valid allowed u = true) ∧
  (∀ u ∈ s.found, u ∈ seeds ∨ is_valid allowed u = true)

/-- One crawl step preserves the scope invariant. -/
theorem crawlStep_inScopeInv (web : Web) (dedup : Bool) (seeds allowed : List String)
    (s : CrawlState) (h : InScopeInv seeds allowed s) :
    InScopeInv seeds allowed (crawlStep web dedup allowed s) := by
  obtain ⟨hv, hq, hf⟩ := h
  cases hqe : s.queue with
  | nil =>
    have hcs : crawlStep web dedup allowed s = s := by unfold crawlStep; rw [hqe]
    rw [hcs]
    exact ⟨hv, hq, hf⟩
  | cons url rest =>
    rw [hqe] at hq
    have hurl : url ∈ seeds ∨ is_valid allowed url = true := hq url (List.mem_cons_self _ _)
    have hrest : ∀ u ∈ rest, u ∈ seeds ∨ is_valid allowed u = true :=
      fun u hu => hq u (List.mem_cons_of_mem _ hu)
    have hlinks : ∀ u ∈ (extract web dedup allowed s.seen_param_signatures url).1,
        u ∈ seeds ∨ is_valid allowed u = true :=
      fun u hu => Or.inr (extract_valid web dedup allowed s.seen_param_signatures url u hu)
    by_cases hvm : url ∈ s.visited
    · have hcs : crawlStep web dedup allowed s = { s with queue := rest } := by
        unfold crawlStep; rw [hqe]; simp [hvm]
      rw [hcs]
      exact ⟨hv, hrest, hf⟩
    · have hcs : crawlStep web dedup allowed s =
          { visited := s.visited ++ [url]
            queue := pushLinks (s.visited ++ [url]) rest
              (extract web dedup allowed s.seen_param_signatures url).1
            found := (extract web dedup allowed s.seen_param_signatures url).1.foldl
              insertOnce s.found
            seen_param_signatures := (extract web dedup allowed s.seen_param_signatures url).2 } :=
        by unfold crawlStep; rw [hqe]; simp [hvm]
      rw [hcs]
      refine ⟨?_, ?_, ?_⟩
      · intro u hu
        rcases List.mem_append.mp hu with h' | h'
        · exact hv u h'
        · exact (List.mem_singleton.mp h') ▸ hurl
      · intro u hu
        rcases mem_pushLinks _ _ _ u hu with h' | h'
        · exact hrest u h'
        · exact hlinks u h'
      · intro u hu
        rcases mem_foldl_insertOnce _ _ u hu with h' | h'
        · exact hf u h'
        · exact hlinks u h'

/-- Splitting at the first separator of a field whose only separator is at
the very end. -/
theorem splitAtFirst_append_single (c : Char) :
    ∀ (n : List Char), c ∉ n → splitAtFirst c (n ++ [c]) = some (n, []) := by
  intro n
  induction n with
  | nil => simp [splitAtFirst]
  | cons x xs ih =>
    intro hc
    have hx : ¬ x = c := fun h => hc (h ▸ List.mem_cons_self x xs)
    have ih' := ih (fun h => hc (List.mem_cons_of_mem _ h))
    simp only [List.cons_append, splitAtFirst, if_neg hx, List.append_eq, ih']

/-- C1: during every crawl run with a non-negative page budget the visited
set holds at most `maxPages` URLs at every point (the loop checks
`len(visited) < MAX_PAGES` before popping), and the loop reaches its
stopping condition — budget exhausted or frontier empty, whichever comes
first. -/
theorem crawl_budget_bound (web : Web) (dedup : Bool) (maxPages : Int)
    (seeds : List String) (hm : 0 ≤ maxPages) :
    (∀ fuel, ((runCrawler web dedup maxPages fuel seeds).visited.length : Int) ≤ maxPages) ∧
    (∃ fuel, halted maxPages (runCrawler web dedup maxPages fuel seeds)) := by
  constructor
  · intro fuel
    unfold runCrawler
    apply crawlRun_visited_le
    simpa [initState] using hm
  · unfold runCrawler
    exact crawl_halts_aux web dedup (allowedDomainsOf seeds) maxPages
      (maxPages - ((initState seeds).visited.length : Int)).toNat
      (initState seeds).queue.length (initState seeds) le_rfl le_rfl

theorem crawl_budget_bound_witness :
    (0 : Int) ≤ 2 ∧
    ((∀ fuel, ((runCrawler (fun _ => none) false 2 fuel ["http://s/"]).visited.length : Int) ≤ 2) ∧
     (∃ fuel, halted 2 (runCrawler (fun _ => none) false 2 fuel ["http://s/"]))) :=
  ⟨by decide, crawl_budget_bound (fun _ => none) false 2 ["http://s/"] (by decide)⟩

/-- C2: starting from a duplicate-free seed list, at every point of the run
the visited set and the queue are each duplicate-free and no visited URL is
still (or ever again) in the queue: no URL is visited twice and a visited
URL is never re-enqueued. -/
theorem crawl_no_duplicate_visits (web : Web) (dedup : Bool) (maxPages : Int)
    (seeds : List String) (fuel : Nat) (hseeds : seeds.Nodup) :
    (runCrawler web dedup maxPages fuel seeds).visited.Nodup ∧
    (runCrawler web dedup maxPages fuel seeds).queue.Nodup ∧
    ∀ u ∈ (runCrawler web dedup maxPages fuel seeds).visited,
      u ∉ (runCrawler web dedup maxPages fuel seeds).queue := by
  have h := crawlRun_inv web dedup (allowedDomainsOf seeds) maxPages FrontierInv
    (crawlStep_frontierInv web dedup (allowedDomainsOf seeds)) fuel (initState seeds)
    ⟨List.nodup_nil, hseeds, by intro u hu; simp [initState] at hu⟩
  exact h

theorem crawl_no_duplicate_visits_witness :
    (["http://s/"] : List String).Nodup ∧
    ((runCrawler (fun _ => none) false 50 5 ["http://s/"]).visited.Nodup ∧
     (runCrawler (fun _ => none) false 50 5 ["http://s/"]).queue.Nodup ∧
     ∀ u ∈ (runCrawler (fun _ => none) false 50 5 ["http://s/"]).visited,
       u ∉ (runCrawler (fun _ => none) false 50 5 ["http://s/"]).queue) :=
  ⟨by decide, crawl_no_duplicate_visits (fun _ => none) false 50 ["http://s/"] 5 (by decide)⟩

/-- C3: on the page graph A -> {B, C}, B -> {D} with seed A and budget 4,
the visit order is A, then B and C in A's within-page order (either order),
then D — D is never visited before B or C. -/
theorem bfs_visit_order (l : List String)
    (hl : l = ["http://site/b", "http://site/c"] ∨ l = ["http://site/c", "http://site/b"]) :
    (runCrawler (bfsWeb l) false 4 10 ["http://site/a"]).visited
      = "http://site/a" :: (l ++ ["http://site/d"]) := by
  rcases hl with rfl | rfl <;> decide

theorem bfs_visit_order_witness :
    (["http://site/b", "http://site/c"] = ["http://site/b", "http://site/c"] ∨
     ["http://site/b", "http://site/c"] = ["http://site/c", "http://site/b"]) ∧
    (runCrawler (bfsWeb ["http://site/b", "http://site/c"]) false 4 10 ["http://site/a"]).visited
      = "http://site/a" :: (["http://site/b", "http://site/c"] ++ ["http://site/d"]) :=
  ⟨Or.inl rfl, bfs_visit_order _ (Or.inl rfl)⟩

/-- C4: every URL in the discovered set (visited ∪ found) — and anything
still on the frontier — either equals a seed or passed the scope filter
(scheme http/https and host in the allowed-domain set computed from the
seeds); no out-of-scope extracted link ever enters them. -/
theorem discovered_in_scope (web : Web) (dedup : Bool) (maxPages : Int)
    (seeds : List String) (fuel : Nat) (u : String)
    (hu : u ∈ (runCrawler web dedup maxPages fuel seeds).visited ∨
          u ∈ (runCrawler web dedup maxPages fuel seeds).found ∨
          u ∈ (runCrawler web dedup maxPages fuel seeds).queue) :
    u ∈ seeds ∨ is_valid (allowedDomainsOf seeds) u = true := by
  have h := crawlRun_inv web dedup (allowedDomainsOf seeds) maxPages
    (InScopeInv seeds (allowedDomainsOf seeds))
    (crawlStep_inScopeInv web dedup seeds (allowedDomainsOf seeds)) fuel (initState seeds)
    ⟨by intro v hv; simp [initState] at hv,
     by intro v hv; exact Or.inl hv,
     by intro v hv; simp [initState] at hv⟩
  obtain ⟨h1, h2, h3⟩ := h
  rcases hu with hu | hu | hu
  · exact h1 u hu
  · exact h3 u hu
  · exact h2 u hu

theorem discovered_in_scope_witness :
    ("http://s/" ∈ (runCrawler (fun _ => none) false 50 5 ["http://s/"]).visited ∨
     "http://s/" ∈ (runCrawler (fun _ => none) false 50 5 ["http://s/"]).found ∨
     "http://s/" ∈ (runCrawler (fun _ => none) false 50 5 ["http://s/"]).queue) ∧
    ("http://s/" ∈ ["http://s/"] ∨
     is_valid (allowedDomainsOf ["http://s/"]) "http://s/" = true) :=
  ⟨by decide, discovered_in_scope (fun _ => none) false 50 ["http://s/"] 5 "http://s/" (by decide)⟩

/-- C5: the signature of a URL is its path joined with the sorted set of its
query-parameter names (values discarded; path alone when there are none):
`/p?id=1`, `/p?id=2`, `/p?id=3&x=1` yield exactly the two signatures
`/p?params=id` and `/p?params=id&x`, and with dedup enabled at most one
concrete URL per signature is admitted and crawled. -/
theorem signature_dedup_scenario :
    normalize_param_signature "http://s/p?id=1" = "/p?params=id" ∧
    normalize_param_signature "http://s/p?id=2" = "/p?params=id" ∧
    normalize_param_signature "http://s/p?id=3&x=1" = "/p?params=id&x" ∧
    (runCrawler dedupWeb true 50 10 ["http://s/"]).seen_param_signatures
      = ["/p?params=id", "/p?params=id&x"] ∧
    (runCrawler dedupWeb true 50 10 ["http://s/"]).visited
      = ["http://s/", "http://s/p?id=1", "http://s/p?id=3&x=1"] := by
  decide

/-- C6: the signature is a pure function of the URL's path and the set of
its admitted query-parameter names: two URLs with equal paths and equal
parameter-name sets — in particular two URLs differing only in parameter
values — get identical signatures.  (Repeated calls on the same URL agree by
construction: the model is a function.) -/
theorem signature_depends_only_on_names (u1 u2 : String)
    (hpath : (urlparse u1).path = (urlparse u2).path)
    (hnames : (qsNames (urlparse u1).query).toFinset
      = (qsNames (urlparse u2).query).toFinset) :
    normalize_param_signature u1 = normalize_param_signature u2 := by
  simp only [normalize_param_signature]
  rw [parse_qs_keys_eq_of_same_names _ _ hnames, hpath]

theorem signature_depends_only_on_names_witness :
    ((urlparse "http://s/p?id=1").path = (urlparse "http://s/p?id=2").path ∧
     (qsNames (urlparse "http://s/p?id=1").query).toFinset
       = (qsNames (urlparse "http://s/p?id=2").query).toFinset) ∧
    normalize_param_signature "http://s/p?id=1" = normalize_param_signature "http://s/p?id=2" :=
  ⟨⟨by decide, by decide⟩, signature_depends_only_on_names _ _ (by decide) (by decide)⟩

/-- C7: a URL whose fetch fails (timeout, network error, non-2xx status or
parse failure — the oracle answers `none`) is still marked visited, still
consumes budget, contributes no links, and the crawl goes on and terminates:
with a single always-failing seed the final state has exactly that seed
visited, an empty frontier and an empty discovered-link set, for any
sufficient fuel. -/
theorem fetch_failure_contained (web : Web) (S : String) (dedup : Bool)
    (maxPages : Int) (hfail : web S = none) (hm : 1 ≤ maxPages) :
    ∀ fuel, 1 ≤ fuel →
      runCrawler web dedup maxPages fuel [S]
        = { visited := [S], queue := [], found := [], seen_param_signatures := [] } := by
  intro fuel hf
  obtain ⟨n, rfl⟩ : ∃ n, fuel = n + 1 := ⟨fuel - 1, by omega⟩
  unfold runCrawler
  rw [crawlRun_succ_of_guard _ _ _ _ _ _ (by simp [initState])
    (by simp [initState]; omega)]
  have hcs : crawlStep web dedup (allowedDomainsOf [S]) (initState [S])
      = { visited := [S], queue := [], found := [], seen_param_signatures := [] } := by
    unfold crawlStep initState
    simp [extract, hfail, pushLinks]
  rw [hcs]
  exact crawlRun_queue_nil _ _ _ _ _ _ rfl

theorem fetch_failure_contained_witness :
    ((fun _ => (none : Option (List String))) "http://s/" = none ∧
     (1 : Int) ≤ 50 ∧ (1 : Nat) ≤ 3) ∧
    runCrawler (fun _ => none) false 50 3 ["http://s/"]
      = { visited := ["http://s/"], queue := [], found := [],
          seen_param_signatures := [] } :=
  ⟨⟨rfl, by decide, by decide⟩,
   fetch_failure_contained (fun _ => none) "http://s/" false 50 rfl (by decide) 3 (by decide)⟩

/-- C9: seeds bypass the scope filter and the deduplicator: an `ftp://` seed
is enqueued and visited although `is_valid` rejects it; a seed's own
parameter signature is never recorded at its visit even in dedup mode, so a
visited seed and a later-extracted URL with the same signature are both
crawled. -/
theorem seeds_bypass_filters :
    normalize_param_signature "http://s/p?id=1" = normalize_param_signature "http://s/p?id=2" ∧
    (runCrawler sameSigWeb true 50 10 ["http://s/p?id=1"]).visited
      = ["http://s/p?id=1", "http://s/p?id=2"] ∧
    (runCrawler sameSigWeb true 50 10 ["http://s/p?id=1"]).seen_param_signatures
      = ["/p?params=id"] ∧
    (runCrawler (fun _ => some []) true 50 10 ["http://t/q?a=1"]).visited
      = ["http://t/q?a=1"] ∧
    (runCrawler (fun _ => some []) true 50 10 ["http://t/q?a=1"]).seen_param_signatures = [] ∧
    is_valid (allowedDomainsOf ["ftp://t/x"]) "ftp://t/x" = false ∧
    (runCrawler (fun _ => none) true 50 10 ["ftp://t/x"]).visited = ["ftp://t/x"] := by
  decide

/-- C10: query parameters whose value is empty are excluded from the
signature: when every `&`-field of the query is empty or of the form
`name=` with nothing after the `=`, the signature is the bare path — the
same signature the URL would get with no query string at all (a query-less
URL satisfies the hypothesis vacuously, its only field being empty). -/
theorem empty_valued_params_excluded (u : String)
    (h : ∀ f ∈ splitOnChar '&' (urlparse u).query.toList,
        f = [] ∨ ('=' ∉ f.dropLast ∧ f.getLast? = some '=')) :
    normalize_param_signature u = (urlparse u).path := by
  have hnil : (splitOnChar '&' (urlparse u).query.toList).filterMap parseQsField = [] := by
    rw [List.filterMap_eq_nil_iff]
    intro f hf
    rcases h f hf with rfl | ⟨hne, hlast⟩
    · rfl
    · have hfe : f ≠ [] := by
        intro hc
        rw [hc] at hlast
        simp at hlast
      have hsplit : f = f.dropLast ++ [f.getLast hfe] :=
        (List.dropLast_append_getLast hfe).symm
      have hlast' : f.getLast hfe = '=' := by
        have h2 := List.getLast?_eq_getLast_of_ne_nil hfe
        rw [h2] at hlast
        exact Option.some.inj hlast
      rw [hlast'] at hsplit
      obtain ⟨n, hn, rfl⟩ : ∃ n, '=' ∉ n ∧ f = n ++ ['='] := ⟨f.dropLast, hne, hsplit⟩
      simp [parseQsField, splitAtFirst_append_single '=' n hn]
  have hkeys : parse_qs_keys (urlparse u).query = [] := by
    unfold parse_qs_keys qsNames
    rw [hnil]
    rfl
  simp [normalize_param_signature, hkeys]

theorem empty_valued_params_excluded_witness :
    (∀ f ∈ splitOnChar '&' (urlparse "http://s/p?id=").query.toList,
        f = [] ∨ ('=' ∉ f.dropLast ∧ f.getLast? = some '=')) ∧
    normalize_param_signature "http://s/p?id=" = (urlparse "http://s/p?id=").path :=
  ⟨by decide, empty_valued_params_excluded "http://s/p?id=" (by decide)⟩

end FlashCrawler
